import Mathlib

/-
Verification of the workflow-generation script `generate_flow.py`.

The script's text pipeline is embedded shallowly over `List Char` (a Python
`str` is a sequence of Unicode code points, matching Lean's `Char`):
fence removal (`re.sub(r"```[a-zA-Z]*", "")` and `.replace("```", "")`),
whitespace strip, three literal `.replace` substitutions, the line filter,
and the parse-and-check validation step with its hard-coded fallback.
The external library call `yaml.safe_load` is modelled by an executable
parser for the block-style YAML subset the script exchanges; the Python
truthiness / `in` / indexing semantics of the validity check are modelled
exactly, including the `TypeError` cases that the `except yaml.YAMLError`
handler does not catch.
-/

set_option maxRecDepth 20000
set_option maxHeartbeats 1000000

/-- The backquote character, U+0060, written via its code point. -/
def bq : Char := Char.ofNat 96

/-- The three-character code-fence delimiter. -/
def ticks : List Char := [bq, bq, bq]

/-- Characters matched by the regex class `[a-zA-Z]` in `re.sub(r"```[a-zA-Z]*", ...)`. -/
def isFenceAlpha (c : Char) : Bool :=
  (('a' ≤ c) && (c ≤ 'z')) || (('A' ≤ c) && (c ≤ 'Z'))

/-- Characters matched by the regex class `\w` (ASCII fragment: the inputs the
script exchanges are ASCII, so the Unicode extension of `\w` is not modelled). -/
def isWordChar (c : Char) : Bool := c.isAlphanum || c = '_'

/-- Whitespace characters stripped by Python's `str.strip()` / `str.rstrip()`
(CPython's `Py_UNICODE_ISSPACE` table). -/
def isPySpace (c : Char) : Bool :=
  let n := c.toNat
  n = 32 || (9 ≤ n && n ≤ 13) || (28 ≤ n && n ≤ 31) || n = 133 || n = 160 ||
  n = 0x1680 || (0x2000 ≤ n && n ≤ 0x200a) || n = 0x2028 || n = 0x2029 ||
  n = 0x202f || n = 0x205f || n = 0x3000

/-- Line-boundary characters of Python's `str.splitlines` (CR is handled
together with the CRLF pair in `pyLines`). -/
def isLB (c : Char) : Bool :=
  let n := c.toNat
  n = 10 || n = 11 || n = 12 || n = 13 || n = 28 || n = 29 || n = 30 ||
  n = 133 || n = 0x2028 || n = 0x2029

/-- Python `str.splitlines()`: one entry per line, a terminator closes a line,
CRLF counts as a single terminator, no trailing empty line for a trailing
terminator, and `"".splitlines() == []`. -/
def pyLines : List Char → List (List Char)
  | [] => []
  | '\r' :: '\n' :: rest => [] :: pyLines rest
  | c :: rest =>
    if isLB c then [] :: pyLines rest
    else match pyLines rest with
      | [] => [[c]]
      | L :: ls => (c :: L) :: ls

/-- Python `str.lstrip()`. -/
def pyLStrip (l : List Char) : List Char := l.dropWhile isPySpace

/-- Python `str.rstrip()`. -/
def pyRStrip (l : List Char) : List Char := (l.reverse.dropWhile isPySpace).reverse

/-- Python `str.strip()`. -/
def pyStrip (l : List Char) : List Char := pyRStrip (pyLStrip l)

/-- Python `"\n".join`. -/
def joinNL : List (List Char) → List Char
  | [] => []
  | [l] => l
  | l :: ls => l ++ '\n' :: joinNL ls

/-- Fuelled worker for `pyReplace`; the fuel only serves to make the
recursion structural, and is always called with fuel at least the input
length, which `pyReplaceF_congr` shows is the only regime that matters. -/
def pyReplaceF (pc : Char) (ps repl : List Char) : Nat → List Char → List Char
  | _, [] => []
  | 0, l => l
  | n + 1, c :: rest =>
    if pc = c ∧ ps.isPrefixOf rest then
      repl ++ pyReplaceF pc ps repl n (rest.drop ps.length)
    else
      c :: pyReplaceF pc ps repl n rest

/-- Python `str.replace(pat, repl)` for the non-empty pattern `pc :: ps`:
scan left to right, replace each non-overlapping occurrence, never rescan
the replacement text. -/
def pyReplace (pc : Char) (ps repl : List Char) (l : List Char) : List Char :=
  pyReplaceF pc ps repl l.length l

/-- Python `str.replace` with the pattern given as one list.  The script only
uses non-empty literal patterns; an empty pattern is mapped to the identity. -/
def replaceLit (pat repl l : List Char) : List Char :=
  match pat with
  | [] => l
  | pc :: ps => pyReplace pc ps repl l

/-- Fuelled worker for `subFence`, structural for the same reason as
`pyReplaceF`. -/
def subFenceF : Nat → List Char → List Char
  | _, [] => []
  | 0, l => l
  | n + 1, c :: rest =>
    if c = bq ∧ [bq, bq].isPrefixOf rest then
      subFenceF n ((rest.drop 2).dropWhile isFenceAlpha)
    else
      c :: subFenceF n rest

/-- `re.sub(r"```[a-zA-Z]*", "", text)`: remove each leftmost occurrence of
three backquotes greedily followed by ASCII letters. -/
def subFence (l : List Char) : List Char := subFenceF l.length l

/-- Condition `re.match(r"^(\w+):", stripped)` of the line filter: one or
more word characters from the start, immediately followed by a colon. -/
def reKeyMatch (s : List Char) : Bool :=
  match s.dropWhile isWordChar with
  | ':' :: _ => !(s.takeWhile isWordChar).isEmpty
  | _ => false

/-- Condition `re.match(r"^- ", stripped)` of the line filter. -/
def reDashMatch (s : List Char) : Bool :=
  match s with
  | '-' :: ' ' :: _ => true
  | _ => false

/-- Condition `line.startswith(" ")` of the line filter: a literal space
character, not arbitrary whitespace. -/
def startsWithSpace (l : List Char) : Bool :=
  match l with
  | ' ' :: _ => true
  | _ => false

/-- The line filter of `main` (generate_flow.py line 103): keep a line when its
stripped form is empty, or matches `^(\w+):`, or matches `^- `, or the raw
line starts with a space. -/
def keepLine (line : List Char) : Bool :=
  let s := pyStrip line
  s.isEmpty || reKeyMatch s || reDashMatch s || startsWithSpace line

/-- Literal pattern `"actions/upload-artifact@v3"` (line 93). -/
def upPat : List Char := "actions/upload-artifact@v3".toList

/-- Literal replacement `"actions/upload-artifact@v4"` (line 93). -/
def upNew : List Char := "actions/upload-artifact@v4".toList

/-- Literal pattern `"actions/download-artifact@v3"` (line 94). -/
def downPat : List Char := "actions/download-artifact@v3".toList

/-- Literal replacement `"actions/download-artifact@v4"` (line 94). -/
def downNew : List Char := "actions/download-artifact@v4".toList

/-- Literal pattern `"actions-gh-pages/action"` (line 97). -/
def ghPat : List Char := "actions-gh-pages/action".toList

/-- Literal replacement `"peaceiris/actions-gh-pages"` (line 97). -/
def ghNew : List Char := "peaceiris/actions-gh-pages".toList

/-- Stages of `main` after the fence markers are gone (lines 90-105):
`.strip()`, the three literal replacements in their implemented order, then
the line filter with per-line `rstrip` and `"\n".join`. -/
def postFencePipeline (t : List Char) : List Char :=
  joinNL
    (((pyLines
      (replaceLit ghPat ghNew
        (replaceLit downPat downNew
          (replaceLit upPat upNew (pyStrip t))))).filter keepLine).map pyRStrip)

/-- The Sanitizer (generate_flow.py lines 89-105): `re.sub(r"```[a-zA-Z]*", "")`,
`.replace("```", "")`, then `postFencePipeline`. -/
def sanitize (raw : List Char) : List Char :=
  postFencePipeline (replaceLit ticks [] (subFence raw))

/-- Occurrence check for the fence delimiter: `true` iff `ticks` occurs as a
contiguous substring. -/
def hasTicks : List Char → Bool
  | [] => false
  | c :: rest => ticks.isPrefixOf (c :: rest) || hasTicks rest

/-
The YAML value model and the modelled `yaml.safe_load`.

`yaml.safe_load` is an external-library call; it is modelled by an
executable recursive-descent parser for the block-style subset the script
exchanges: nested block mappings, block sequences (`- ` items, including
inline mapping items with indented continuations), the empty flow sequence
`[]`, and plain scalars kept as strings.  Comments, anchors, flow
collections other than `[]`, multi-line scalars and YAML 1.1 scalar
coercion (booleans, integers) are outside the subset and are rejected or
kept as strings; no claim below depends on them.
-/

/-- YAML values as produced by the modelled `yaml.safe_load`. -/
inductive Yaml where
  | null : Yaml
  | str : List Char → Yaml
  | list : List Yaml → Yaml
  | map : List (List Char × Yaml) → Yaml

/-- Errors of the modelled parser; every constructor corresponds to input
outside the supported subset and plays the role of `yaml.YAMLError`. -/
inductive YErr where
  | fuelOut | badIndent | expectedKey | emptyKey | leftover | unsupported

/-- One non-blank physical line: (indent in spaces, content after the indent). -/
abbrev PLine := Nat × List Char

/-- Split a document into non-blank lines with their indentation. -/
def toPLines (l : List Char) : List PLine :=
  (pyLines l).filterMap (fun line =>
    let content := line.dropWhile (fun c => c = ' ')
    if content.isEmpty then none
    else some (line.length - content.length, content))

/-- Does a line content start a block-sequence item (`- ` or a lone dash)? -/
def dashStart (c : List Char) : Bool :=
  match c with
  | '-' :: ' ' :: _ => true
  | ['-'] => true
  | _ => false

/-- Split `key: value` / `key:` at the first colon that is followed by a
space or ends the line; the value is left-trimmed of spaces. -/
def splitKey : List Char → Option (List Char × List Char)
  | [] => none
  | ':' :: [] => some ([], [])
  | ':' :: ' ' :: rest => some ([], rest.dropWhile (fun c => c = ' '))
  | c :: rest => (splitKey rest).map (fun kv => (c :: kv.1, kv.2))

/-- Inline values: the empty flow sequence `[]`, otherwise a plain string
scalar. -/
def parseVal (v : List Char) : Yaml :=
  if v = ['[', ']'] then Yaml.list [] else Yaml.str v

/-- Insert with Python-dict semantics: an existing key keeps its position and
gets the new value. -/
def yInsert (kvs : List (List Char × Yaml)) (k : List Char) (v : Yaml) :
    List (List Char × Yaml) :=
  match kvs with
  | [] => [(k, v)]
  | (k', v') :: rest => if k' == k then (k', v) :: rest else (k', v') :: yInsert rest k v

/-- Build a dict from mapping entries in document order. -/
def dictOf (kvs : List (List Char × Yaml)) : List (List Char × Yaml) :=
  kvs.foldl (fun d kv => yInsert d kv.1 kv.2) []

mutual

/-- Parse one node starting at the first remaining line's indentation. -/
def parseNode : Nat → List PLine → Except YErr (Yaml × List PLine)
  | 0, _ => .error .fuelOut
  | _ + 1, [] => .ok (.null, [])
  | n + 1, (i, c) :: rest =>
    if dashStart c then
      match parseSeqItems n i ((i, c) :: rest) with
      | .ok (xs, rem) => .ok (.list xs, rem)
      | .error e => .error e
    else
      match splitKey c with
      | some _ =>
        match parseMapEntries n i ((i, c) :: rest) with
        | .ok (kvs, rem) => .ok (.map (dictOf kvs), rem)
        | .error e => .error e
      | none =>
        match rest with
        | [] => .ok (parseVal c, [])
        | _ => .error .unsupported

/-- Parse the entries of a block mapping whose keys sit at indent `i`. -/
def parseMapEntries : Nat → Nat → List PLine →
    Except YErr (List (List Char × Yaml) × List PLine)
  | 0, _, _ => .error .fuelOut
  | _ + 1, _, [] => .ok ([], [])
  | n + 1, i, (j, c) :: rest =>
    if j < i then .ok ([], (j, c) :: rest)
    else if i < j then .error .badIndent
    else
      match splitKey c with
      | none => .error .expectedKey
      | some (k, v) =>
        if k.isEmpty then .error .emptyKey
        else if v.isEmpty then
          let sub := rest.takeWhile (fun q => i < q.1)
          let rem := rest.drop sub.length
          match (if sub.isEmpty then Except.ok (Yaml.null, ([] : List PLine))
                 else parseNode n sub) with
          | .error e => .error e
          | .ok (node, r) =>
            if r.isEmpty then
              match parseMapEntries n i rem with
              | .ok (kvs, rem') => .ok ((k, node) :: kvs, rem')
              | .error e => .error e
            else .error .leftover
        else
          match parseMapEntries n i rest with
          | .ok (kvs, rem') => .ok ((k, parseVal v) :: kvs, rem')
          | .error e => .error e

/-- Parse the items of a block sequence whose dashes sit at indent `i`. -/
def parseSeqItems : Nat → Nat → List PLine → Except YErr (List Yaml × List PLine)
  | 0, _, _ => .error .fuelOut
  | _ + 1, _, [] => .ok ([], [])
  | n + 1, i, (j, c) :: rest =>
    if j = i ∧ dashStart c then
      let item := (c.drop 1).dropWhile (fun ch => ch = ' ')
      let sub := rest.takeWhile (fun q => i < q.1)
      let rem := rest.drop sub.length
      let itemLines :=
        if item.isEmpty then sub else (i + (c.length - item.length), item) :: sub
      match parseNode n itemLines with
      | .error e => .error e
      | .ok (node, r) =>
        if r.isEmpty then
          match parseSeqItems n i rem with
          | .ok (xs, rem') => .ok (node :: xs, rem')
          | .error e => .error e
        else .error .leftover
    else .ok ([], (j, c) :: rest)

end

/-- Modelled `yaml.safe_load`: parse the whole document; an empty document
yields `null` (Python `None`). -/
def yamlParse (s : List Char) : Except YErr Yaml :=
  let ls := toPLines s
  match parseNode (4 * ls.length + 4) ls with
  | .error e => .error e
  | .ok (v, rem) => if rem.isEmpty then .ok v else .error .leftover

/-
Python semantics of the validity check at line 110:
`if not parsed_yaml or "jobs" not in parsed_yaml or "deploy" not in parsed_yaml["jobs"]`.
-/

/-- Python runtime errors the check can raise; `yaml.YAMLError` does not
catch these. -/
inductive PyErr where
  | typeError | keyError

/-- Python truthiness of a parsed value. -/
def pyTruthy : Yaml → Bool
  | .null => false
  | .str s => !s.isEmpty
  | .list xs => !xs.isEmpty
  | .map kvs => !kvs.isEmpty

/-- Substring test, as Python's `in` on strings. -/
def isSubStr (needle : List Char) : List Char → Bool
  | [] => needle.isEmpty
  | c :: rest => needle.isPrefixOf (c :: rest) || isSubStr needle rest

/-- Is this value the string `s`?  (Python `==` against a string.) -/
def yIsStrEq (y : Yaml) (s : List Char) : Bool :=
  match y with
  | .str t => t == s
  | _ => false

/-- First-match association lookup (the modelled parser never produces
duplicate keys, see `dictOf`). -/
def yLookup (kvs : List (List Char × Yaml)) (k : List Char) : Option Yaml :=
  match kvs with
  | [] => none
  | (k', v) :: rest => if k' == k then some v else yLookup rest k

/-- Python `needle in v`: substring on strings, membership on lists, key
membership on dicts, `TypeError` on `None`. -/
def pyContains (v : Yaml) (needle : List Char) : Except PyErr Bool :=
  match v with
  | .null => .error .typeError
  | .str s => .ok (isSubStr needle s)
  | .list xs => .ok (xs.any (fun y => yIsStrEq y needle))
  | .map kvs => .ok (kvs.any (fun kv => kv.1 == needle))

/-- Python `v[k]` for a string key: dict lookup, `TypeError` on anything
else. -/
def pyGetItem (v : Yaml) (k : List Char) : Except PyErr Yaml :=
  match v with
  | .map kvs =>
    match yLookup kvs k with
    | some y => .ok y
    | none => .error .keyError
  | _ => .error .typeError

/-- Key `"jobs"`. -/
def jobsKey : List Char := "jobs".toList

/-- Key `"deploy"`. -/
def deployKey : List Char := "deploy".toList

/-- The short-circuiting condition of line 110, `true` meaning the fallback
branch is taken; a `TypeError` propagates out of the `try` block uncaught. -/
def pyCheckInvalid (v : Yaml) : Except PyErr Bool :=
  if !pyTruthy v then .ok true
  else
    match pyContains v jobsKey with
    | .error e => .error e
    | .ok c1 =>
      if !c1 then .ok true
      else
        match pyGetItem v jobsKey with
        | .error e => .error e
        | .ok jv =>
          match pyContains jv deployKey with
          | .error e => .error e
          | .ok c2 => .ok (!c2)

/-- The hard-coded fallback workflow `FALLBACK_WORKFLOW` (lines 55-74). -/
def FALLBACK_WORKFLOW : List Char :=
  ("name: Deploy Static Site\n\non:\n  push:\n    branches:\n      - main\n\njobs:\n  deploy:\n    runs-on: ubuntu-latest\n    steps:\n      - name: Checkout code\n        uses: actions/checkout@v3\n\n      - name: Deploy to GitHub Pages\n        uses: peaceiris/actions-gh-pages@v3\n        with:\n          github_token: $\x7b\x7b secrets.GITHUB_TOKEN \x7d\x7d\n          publish_dir: ./\n").toList

/-- Lines 108-115: parse errors select the fallback, an `invalid` verdict
selects the fallback, a valid candidate passes through unchanged, and a
`TypeError` raised by the check propagates. -/
def validateStep (c : List Char) : Except PyErr (List Char) :=
  match yamlParse c with
  | .error _ => .ok FALLBACK_WORKFLOW
  | .ok v =>
    match pyCheckInvalid v with
    | .error e => .error e
    | .ok true => .ok FALLBACK_WORKFLOW
    | .ok false => .ok c

/-- The document `main` writes to `.github/workflows/deploy.yml`, as a
function of the raw agent text (the write at line 122 is verbatim). -/
def finalWorkflowText (raw : List Char) : Except PyErr (List Char) :=
  validateStep (sanitize raw)

/-
The surrounding flow: startup (lines 13-39) and the commit decision
(lines 126-136), modelled as pure functions over an explicit system state
that records exactly what the script consults, plus an ordered list of the
side effects it performs.
-/

/-- The parts of the environment the script consults. -/
structure SysState where
  indexExists : Bool
  gitDirExists : Bool
  headDetached : Bool
  activeBranch : List Char
  mainExists : Bool
  dirty : Bool
  remotes : List (List Char)

/-- Side effects the script can perform, in program order. -/
inductive Effect where
  | writeIndexPlaceholder
  | gitInit
  | switchHeadToMain
  | checkoutNewMain
  | agentRun
  | writeWorkflowFile
  | stageAll
  | commitAll
  | createRemoteOrigin
  | pushMainMain
deriving DecidableEq

/-- Branch name `"main"`. -/
def mainBranch : List Char := "main".toList

/-- Remote name `"origin"`. -/
def originName : List Char := "origin".toList

/-- Module top level, lines 13-39: `raise ValueError` when the credential is
absent (or empty, `if not api_key`) happens before the placeholder write,
the repository initialisation and the branch switch; on success the listed
effects are performed in order. -/
def scriptStartup (apiKey : Option (List Char)) (st : SysState) :
    Except Unit (List Effect) :=
  match apiKey with
  | none => .error ()
  | some k =>
    if k.isEmpty then .error ()
    else
      .ok ((if st.indexExists then [] else [.writeIndexPlaceholder]) ++
        (if st.gitDirExists then [] else [.gitInit]) ++
        (if st.headDetached || !(st.activeBranch == mainBranch) then
          (if st.mainExists then [.switchHeadToMain] else [.checkoutNewMain])
        else []))

/-- The commit decision, lines 126-136: when the tree is dirty, stage all,
commit, create the remote `origin` when absent, and push `main:main`; when
clean, do nothing.  Returns the updated repository state and the performed
effects. -/
def commitStep (st : SysState) : SysState × List Effect :=
  if st.dirty then
    ({ st with
        dirty := false,
        remotes :=
          if st.remotes.contains originName then st.remotes
          else st.remotes ++ [originName] },
      [.stageAll, .commitAll] ++
        (if st.remotes.contains originName then [] else [.createRemoteOrigin]) ++
        [.pushMainMain])
  else (st, [])

/-- The body of `main` (lines 83-136) as a function of the agent's reply and
the system state at the commit decision: sanitize, validate-or-fallback,
write the file, then the commit decision.  An uncaught `TypeError` from the
validity check aborts the flow. -/
def mainFlow (agentText : List Char) (st : SysState) :
    Except PyErr (List Char × List Effect) :=
  match validateStep (sanitize agentText) with
  | .error e => .error e
  | .ok doc => .ok (doc, [.agentRun, .writeWorkflowFile] ++ (commitStep st).2)

/-- Errors that abort the whole script. -/
inductive ScriptErr where
  | valueError
  | pyErr (e : PyErr)

/-- The whole script: startup, then `asyncio.run(main())`. -/
def runScript (apiKey : Option (List Char)) (st : SysState)
    (agentText : List Char) : Except ScriptErr (List Char × List Effect) :=
  match scriptStartup apiKey st with
  | .error _ => .error .valueError
  | .ok fx0 =>
    match mainFlow agentText st with
    | .error e => .error (.pyErr e)
    | .ok (doc, fx) => .ok (doc, fx0 ++ fx)

/-
Definitions taken from the specification's wording, for comparison with the
code's behaviour (refinement checks only; everything above is translated
from the source).
-/

/-- Validity in the words of the spec and of claim C1: the parse result is a
mapping with a top-level `jobs` mapping that contains a `deploy` key. -/
def specHasJobsDeploy (v : Yaml) : Bool :=
  match v with
  | .map kvs =>
    match yLookup kvs jobsKey with
    | some (.map kvs2) => (yLookup kvs2 deployKey).isSome
    | _ => false
  | _ => false

/-- The line filter alone (no strip, no replacements, no per-line rstrip), as
the wording of claim C4's "preserved verbatim modulo the line filter". -/
def lineFilterOnly (t : List Char) : List Char :=
  joinNL ((pyLines t).filter keepLine)

/-- The parse tree of `FALLBACK_WORKFLOW` under the modelled `yaml.safe_load`
(checked by `rfl` in the claim C3 theorem). -/
def fallbackParsed : Yaml :=
  .map [("name".toList, .str ("Deploy Static Site".toList)),
    ("on".toList, .map [("push".toList,
      .map [("branches".toList, .list [.str ("main".toList)])])]),
    (jobsKey, .map [(deployKey,
      .map [("runs-on".toList, .str ("ubuntu-latest".toList)),
        ("steps".toList, .list [
          .map [("name".toList, .str ("Checkout code".toList)),
            ("uses".toList, .str ("actions/checkout@v3".toList))],
          .map [("name".toList, .str ("Deploy to GitHub Pages".toList)),
            ("uses".toList, .str ("peaceiris/actions-gh-pages@v3".toList)),
            ("with".toList, .map [
              ("github_token".toList,
                .str ("$\x7b\x7b secrets.GITHUB_TOKEN \x7d\x7d".toList)),
              ("publish_dir".toList, .str ("./".toList))])]])])])]

/-- Simultaneous one-pass application of two literal replacements, used to
prove that the upload- and download-artifact replacements commute: both
sequential orders are shown equal to this function. -/
def replaceBoth (pc : Char) (ps prepl : List Char) (qc : Char) (qs qrepl : List Char) :
    List Char → List Char
  | [] => []
  | c :: rest =>
    if pc = c ∧ ps.isPrefixOf rest then
      prepl ++ replaceBoth pc ps prepl qc qs qrepl (rest.drop ps.length)
    else if qc = c ∧ qs.isPrefixOf rest then
      qrepl ++ replaceBoth pc ps prepl qc qs qrepl (rest.drop qs.length)
    else c :: replaceBoth pc ps prepl qc qs qrepl rest
termination_by l => l.length
decreasing_by
  all_goals simp only [List.length_drop, List.length_cons]
  all_goals omega

/-
Helper lemmas: unfolding equations for the fuelled workers, and basic
prefix facts.
-/

theorem pyReplaceF_nil (pc : Char) (ps repl : List Char) (n : Nat) :
    pyReplaceF pc ps repl n [] = [] := by
  cases n <;> rfl

theorem pyReplaceF_congr (pc : Char) (ps repl : List Char) :
    ∀ n m l, l.length ≤ n → l.length ≤ m →
      pyReplaceF pc ps repl n l = pyReplaceF pc ps repl m l := by
  intro n
  induction n with
  | zero =>
    intro m l hn _
    have hl : l = [] := List.length_eq_zero.mp (Nat.le_zero.mp hn)
    subst hl
    rw [pyReplaceF_nil, pyReplaceF_nil]
  | succ n ih =>
    intro m l hn hm
    cases l with
    | nil => rw [pyReplaceF_nil, pyReplaceF_nil]
    | cons c rest =>
      cases m with
      | zero => simp at hm
      | succ m =>
        simp only [pyReplaceF]
        by_cases h : pc = c ∧ ps.isPrefixOf rest
        · simp only [if_pos h]
          have h1 : (rest.drop ps.length).length ≤ n := by
            simp only [List.length_drop]
            simp only [List.length_cons] at hn
            omega
          have h2 : (rest.drop ps.length).length ≤ m := by
            simp only [List.length_drop]
            simp only [List.length_cons] at hm
            omega
          rw [ih m _ h1 h2]
        · simp only [if_neg h]
          have h1 : rest.length ≤ n := by
            simp only [List.length_cons] at hn; omega
          have h2 : rest.length ≤ m := by
            simp only [List.length_cons] at hm; omega
          rw [ih m _ h1 h2]

theorem pyReplace_nil (pc : Char) (ps repl : List Char) :
    pyReplace pc ps repl [] = [] := rfl

theorem pyReplace_cons (pc : Char) (ps repl : List Char) (c : Char) (rest : List Char) :
    pyReplace pc ps repl (c :: rest) =
      if pc = c ∧ ps.isPrefixOf rest then
        repl ++ pyReplace pc ps repl (rest.drop ps.length)
      else c :: pyReplace pc ps repl rest := by
  show pyReplaceF pc ps repl (rest.length + 1) (c :: rest) = _
  simp only [pyReplaceF]
  by_cases h : pc = c ∧ ps.isPrefixOf rest
  · simp only [if_pos h]
    rw [pyReplaceF_congr pc ps repl rest.length (rest.drop ps.length).length _
      (by simp only [List.length_drop]; omega) le_rfl]
    rfl
  · simp only [if_neg h]
    rfl

theorem subFenceF_nil (n : Nat) : subFenceF n [] = [] := by
  cases n <;> rfl

theorem subFenceF_congr :
    ∀ n m l, l.length ≤ n → l.length ≤ m → subFenceF n l = subFenceF m l := by
  intro n
  induction n with
  | zero =>
    intro m l hn _
    have hl : l = [] := List.length_eq_zero.mp (Nat.le_zero.mp hn)
    subst hl
    rw [subFenceF_nil, subFenceF_nil]
  | succ n ih =>
    intro m l hn hm
    cases l with
    | nil => rw [subFenceF_nil, subFenceF_nil]
    | cons c rest =>
      cases m with
      | zero => simp at hm
      | succ m =>
        simp only [subFenceF]
        by_cases h : c = bq ∧ [bq, bq].isPrefixOf rest
        · simp only [if_pos h]
          have hd : ((rest.drop 2).dropWhile isFenceAlpha).length ≤ rest.length := by
            calc ((rest.drop 2).dropWhile isFenceAlpha).length
                ≤ (rest.drop 2).length := (List.dropWhile_suffix _).length_le
              _ ≤ rest.length := by simp only [List.length_drop]; omega
          have h1 : ((rest.drop 2).dropWhile isFenceAlpha).length ≤ n := by
            simp only [List.length_cons] at hn; omega
          have h2 : ((rest.drop 2).dropWhile isFenceAlpha).length ≤ m := by
            simp only [List.length_cons] at hm; omega
          rw [ih m _ h1 h2]
        · simp only [if_neg h]
          have h1 : rest.length ≤ n := by
            simp only [List.length_cons] at hn; omega
          have h2 : rest.length ≤ m := by
            simp only [List.length_cons] at hm; omega
          rw [ih m _ h1 h2]

theorem subFence_nil : subFence [] = [] := rfl

theorem subFence_cons (c : Char) (rest : List Char) :
    subFence (c :: rest) =
      if c = bq ∧ [bq, bq].isPrefixOf rest then
        subFence ((rest.drop 2).dropWhile isFenceAlpha)
      else c :: subFence rest := by
  show subFenceF (rest.length + 1) (c :: rest) = _
  simp only [subFenceF]
  by_cases h : c = bq ∧ [bq, bq].isPrefixOf rest
  · simp only [if_pos h]
    have hd : ((rest.drop 2).dropWhile isFenceAlpha).length ≤ rest.length := by
      calc ((rest.drop 2).dropWhile isFenceAlpha).length
          ≤ (rest.drop 2).length := (List.dropWhile_suffix _).length_le
        _ ≤ rest.length := by simp only [List.length_drop]; omega
    rw [subFenceF_congr rest.length ((rest.drop 2).dropWhile isFenceAlpha).length _ hd le_rfl]
    rfl
  · simp only [if_neg h]
    rfl

theorem isPre_iff {l₁ l₂ : List Char} : l₁.isPrefixOf l₂ = true ↔ l₁ <+: l₂ :=
  List.isPrefixOf_iff_prefix

theorem prefTotal {l₁ l₂ l₃ : List Char} (h1 : l₁ <+: l₃) (h2 : l₂ <+: l₃) :
    l₁ <+: l₂ ∨ l₂ <+: l₁ :=
  List.prefix_or_prefix_of_prefix h1 h2

theorem nilPre {l : List Char} : [] <+: l := ⟨l, rfl⟩

theorem pyReplace_append (pc : Char) (ps repl : List Char) :
    ∀ (u x : List Char),
      (∀ k, k < u.length → ¬ (pc :: ps) <+: u.drop k ∧ ¬ u.drop k <+: (pc :: ps)) →
      pyReplace pc ps repl (u ++ x) = u ++ pyReplace pc ps repl x := by
  intro u
  induction u with
  | nil => intro x _; simp
  | cons c u ih =>
    intro x h
    rw [List.cons_append, pyReplace_cons]
    have hnot : ¬ (pc = c ∧ ps.isPrefixOf (u ++ x)) := by
      rintro ⟨he, hps⟩
      have hPl : (pc :: ps) <+: c :: (u ++ x) :=
        List.cons_prefix_cons.mpr ⟨he, isPre_iff.mp hps⟩
      have hul : (c :: u) <+: c :: (u ++ x) :=
        List.cons_prefix_cons.mpr ⟨rfl, ⟨x, rfl⟩⟩
      rcases prefTotal hPl hul with hd | hd
      · exact (h 0 (by simp)).1 (by simpa using hd)
      · exact (h 0 (by simp)).2 (by simpa using hd)
    rw [if_neg hnot]
    have h' : ∀ k, k < u.length → ¬ (pc :: ps) <+: u.drop k ∧ ¬ u.drop k <+: (pc :: ps) := by
      intro k hk
      have := h (k + 1) (by simp only [List.length_cons]; omega)
      simpa using this
    rw [ih x h']
    rfl

theorem pyReplace_no_new (pc : Char) (ps repl q : List Char)
    (hq : ∀ m, 0 < m → m < q.length → ¬ q.drop m <+: repl ∧ ¬ repl <+: q.drop m) :
    ∀ l m, 0 < m → q.drop m <+: pyReplace pc ps repl l → q.drop m <+: l := by
  suffices h : ∀ n l, l.length ≤ n → ∀ m, 0 < m →
      q.drop m <+: pyReplace pc ps repl l → q.drop m <+: l by
    intro l m hm hp
    exact h l.length l le_rfl m hm hp
  intro n
  induction n with
  | zero =>
    intro l hl m _ hp
    have : l = [] := List.length_eq_zero.mp (Nat.le_zero.mp hl)
    subst this
    rwa [pyReplace_nil] at hp
  | succ n ih =>
    intro l hl m hm hp
    by_cases hml : q.length ≤ m
    · rw [List.drop_eq_nil_of_le hml]
      exact nilPre
    · push_neg at hml
      cases l with
      | nil => rwa [pyReplace_nil] at hp
      | cons c rest =>
        rw [pyReplace_cons] at hp
        by_cases hc : pc = c ∧ ps.isPrefixOf rest
        · rw [if_pos hc] at hp
          have hpre : repl <+: repl ++ pyReplace pc ps repl (rest.drop ps.length) :=
            List.prefix_append _ _
          rcases prefTotal hp hpre with hd | hd
          · exact absurd hd (hq m hm hml).1
          · exact absurd hd (hq m hm hml).2
        · rw [if_neg hc] at hp
          rcases List.prefix_cons_iff.mp hp with hnil | ⟨t, hqm, ht⟩
          · rw [hnil]
            exact nilPre
          · have hqd : q.drop m = q[m] :: q.drop (m + 1) := List.drop_eq_getElem_cons hml
            rw [hqd] at hqm
            have hcq : q[m] = c := (List.cons.injEq _ _ _ _).mp hqm |>.1
            have htq : q.drop (m + 1) = t := (List.cons.injEq _ _ _ _).mp hqm |>.2
            have ht' : q.drop (m + 1) <+: pyReplace pc ps repl rest := htq ▸ ht
            have hrec := ih rest (by simp only [List.length_cons] at hl; omega)
              (m + 1) (by omega) ht'
            rw [hqd, hcq]
            exact List.cons_prefix_cons.mpr ⟨rfl, hrec⟩

theorem replaceBoth_nil (pc : Char) (ps prepl : List Char) (qc : Char) (qs qrepl : List Char) :
    replaceBoth pc ps prepl qc qs qrepl [] = [] := by
  rw [replaceBoth]

theorem replaceBoth_cons (pc : Char) (ps prepl : List Char) (qc : Char) (qs qrepl : List Char)
    (c : Char) (rest : List Char) :
    replaceBoth pc ps prepl qc qs qrepl (c :: rest) =
      if pc = c ∧ ps.isPrefixOf rest then
        prepl ++ replaceBoth pc ps prepl qc qs qrepl (rest.drop ps.length)
      else if qc = c ∧ qs.isPrefixOf rest then
        qrepl ++ replaceBoth pc ps prepl qc qs qrepl (rest.drop qs.length)
      else c :: replaceBoth pc ps prepl qc qs qrepl rest := by
  rw [replaceBoth]

theorem replace_seq_first (pc : Char) (ps prepl : List Char) (qc : Char) (qs qrepl : List Char)
    (hA1 : ∀ k, k < prepl.length →
      ¬ (qc :: qs) <+: prepl.drop k ∧ ¬ prepl.drop k <+: (qc :: qs))
    (hA2 : ∀ m, m < (qc :: qs).length → 0 < m →
      ¬ (qc :: qs).drop m <+: prepl ∧ ¬ prepl <+: (qc :: qs).drop m)
    (hB0 : ∀ k, k < (qc :: qs).length →
      ¬ (pc :: ps) <+: (qc :: qs).drop k ∧ ¬ (qc :: qs).drop k <+: (pc :: ps)) :
    ∀ l, pyReplace qc qs qrepl (pyReplace pc ps prepl l) =
      replaceBoth pc ps prepl qc qs qrepl l := by
  suffices h : ∀ n l, l.length ≤ n →
      pyReplace qc qs qrepl (pyReplace pc ps prepl l) =
        replaceBoth pc ps prepl qc qs qrepl l by
    intro l
    exact h l.length l le_rfl
  intro n
  induction n with
  | zero =>
    intro l hl
    have : l = [] := List.length_eq_zero.mp (Nat.le_zero.mp hl)
    subst this
    rw [pyReplace_nil, pyReplace_nil, replaceBoth_nil]
  | succ n ih =>
    intro l hl
    cases l with
    | nil => rw [pyReplace_nil, pyReplace_nil, replaceBoth_nil]
    | cons c rest =>
      rw [replaceBoth_cons]
      by_cases hp : pc = c ∧ ps.isPrefixOf rest
      · rw [pyReplace_cons, if_pos hp, if_pos hp]
        rw [pyReplace_append qc qs qrepl prepl _ hA1]
        rw [ih (rest.drop ps.length)
          (by simp only [List.length_drop, List.length_cons] at hl ⊢; omega)]
      · by_cases hq : qc = c ∧ qs.isPrefixOf rest
        · have hQpre : (qc :: qs) <+: c :: rest :=
            List.cons_prefix_cons.mpr ⟨hq.1, isPre_iff.mp hq.2⟩
          obtain ⟨y, hy⟩ := hQpre
          have hrest : rest = qs ++ y := by
            rw [List.cons_append] at hy
            exact ((List.cons.injEq _ _ _ _).mp hy).2.symm
          have hylen : y.length ≤ n := by
            have := congrArg List.length hrest
            simp only [List.length_append, List.length_cons] at this hl
            omega
          have e1 : pyReplace pc ps prepl (c :: rest) =
              (qc :: qs) ++ pyReplace pc ps prepl y := by
            rw [← hy, pyReplace_append pc ps prepl (qc :: qs) y hB0]
          rw [e1, List.cons_append, pyReplace_cons,
            if_pos ⟨rfl, isPre_iff.mpr (List.prefix_append qs _)⟩, List.drop_left,
            ih y hylen, if_neg hp, if_pos hq, hrest, List.drop_left]
        · rw [pyReplace_cons, if_neg hp]
          have hnc : ¬ (qc = c ∧ qs.isPrefixOf (pyReplace pc ps prepl rest)) := by
            rintro ⟨he, hqs⟩
            have h1 : (qc :: qs).drop 1 <+: pyReplace pc ps prepl rest := by
              simpa using isPre_iff.mp hqs
            have h2 := pyReplace_no_new pc ps prepl (qc :: qs)
              (fun m hm hlt => hA2 m hlt hm) rest 1 (by omega) h1
            exact hq ⟨he, isPre_iff.mpr (by simpa using h2)⟩
          rw [pyReplace_cons, if_neg hnc,
            ih rest (by simp only [List.length_cons] at hl; omega),
            if_neg hp, if_neg hq]

theorem replace_seq_second (pc : Char) (ps prepl : List Char) (qc : Char) (qs qrepl : List Char)
    (hA0 : ∀ k, k < (pc :: ps).length →
      ¬ (qc :: qs) <+: (pc :: ps).drop k ∧ ¬ (pc :: ps).drop k <+: (qc :: qs))
    (hB1 : ∀ k, k < qrepl.length →
      ¬ (pc :: ps) <+: qrepl.drop k ∧ ¬ qrepl.drop k <+: (pc :: ps))
    (hB2 : ∀ m, m < (pc :: ps).length → 0 < m →
      ¬ (pc :: ps).drop m <+: qrepl ∧ ¬ qrepl <+: (pc :: ps).drop m) :
    ∀ l, pyReplace pc ps prepl (pyReplace qc qs qrepl l) =
      replaceBoth pc ps prepl qc qs qrepl l := by
  suffices h : ∀ n l, l.length ≤ n →
      pyReplace pc ps prepl (pyReplace qc qs qrepl l) =
        replaceBoth pc ps prepl qc qs qrepl l by
    intro l
    exact h l.length l le_rfl
  intro n
  induction n with
  | zero =>
    intro l hl
    have : l = [] := List.length_eq_zero.mp (Nat.le_zero.mp hl)
    subst this
    rw [pyReplace_nil, pyReplace_nil, replaceBoth_nil]
  | succ n ih =>
    intro l hl
    cases l with
    | nil => rw [pyReplace_nil, pyReplace_nil, replaceBoth_nil]
    | cons c rest =>
      rw [replaceBoth_cons]
      by_cases hp : pc = c ∧ ps.isPrefixOf rest
      · have hPpre : (pc :: ps) <+: c :: rest :=
          List.cons_prefix_cons.mpr ⟨hp.1, isPre_iff.mp hp.2⟩
        obtain ⟨y, hy⟩ := hPpre
        have hrest : rest = ps ++ y := by
          rw [List.cons_append] at hy
          exact ((List.cons.injEq _ _ _ _).mp hy).2.symm
        have hylen : y.length ≤ n := by
          have := congrArg List.length hrest
          simp only [List.length_append, List.length_cons] at this hl
          omega
        have e1 : pyReplace qc qs qrepl (c :: rest) =
            (pc :: ps) ++ pyReplace qc qs qrepl y := by
          rw [← hy, pyReplace_append qc qs qrepl (pc :: ps) y hA0]
        rw [e1, List.cons_append, pyReplace_cons,
          if_pos ⟨rfl, isPre_iff.mpr (List.prefix_append ps _)⟩, List.drop_left,
          ih y hylen, if_pos hp, hrest, List.drop_left]
      · by_cases hq : qc = c ∧ qs.isPrefixOf rest
        · rw [pyReplace_cons, if_pos hq]
          rw [pyReplace_append pc ps prepl qrepl _ hB1]
          rw [ih (rest.drop qs.length)
            (by simp only [List.length_drop, List.length_cons] at hl ⊢; omega)]
          rw [if_neg hp, if_pos hq]
        · rw [pyReplace_cons, if_neg hq]
          have hnc : ¬ (pc = c ∧ ps.isPrefixOf (pyReplace qc qs qrepl rest)) := by
            rintro ⟨he, hps⟩
            have h1 : (pc :: ps).drop 1 <+: pyReplace qc qs qrepl rest := by
              simpa using isPre_iff.mp hps
            have h2 := pyReplace_no_new qc qs qrepl (pc :: ps)
              (fun m hm hlt => hB2 m hlt hm) rest 1 (by omega) h1
            exact hp ⟨he, isPre_iff.mpr (by simpa using h2)⟩
          rw [pyReplace_cons, if_neg hnc,
            ih rest (by simp only [List.length_cons] at hl; omega),
            if_neg hp, if_neg hq]

/-- Claim C6, corrected statement — proved part.  The upload-artifact and
download-artifact replacements (lines 93-94) are order-independent with
each other: applied in either order they give the same result on every
input.  The gh-pages replacement (line 97) is NOT order-independent with
them (see the claim's counterexample theorem); the code applies it last. -/
theorem claim_C6_artifact_replacements_commute :
    ∀ l : List Char,
      replaceLit downPat downNew (replaceLit upPat upNew l) =
        replaceLit upPat upNew (replaceLit downPat downNew l) := by
  intro l
  show pyReplace 'a' ("ctions/download-artifact@v3".toList) downNew
      (pyReplace 'a' ("ctions/upload-artifact@v3".toList) upNew l) =
    pyReplace 'a' ("ctions/upload-artifact@v3".toList) upNew
      (pyReplace 'a' ("ctions/download-artifact@v3".toList) downNew l)
  have e1 := replace_seq_first 'a' ("ctions/upload-artifact@v3".toList) upNew
    'a' ("ctions/download-artifact@v3".toList) downNew
    (by decide) (by decide) (by decide) l
  have e2 := replace_seq_second 'a' ("ctions/upload-artifact@v3".toList) upNew
    'a' ("ctions/download-artifact@v3".toList) downNew
    (by decide) (by decide) (by decide) l
  exact e1.trans e2.symm

theorem preInf {l₁ l₂ : List Char} (h : l₁ <+: l₂) : l₁ <:+: l₂ := by
  obtain ⟨t, rfl⟩ := h
  exact ⟨[], t, by simp⟩

theorem sufInf {l₁ l₂ : List Char} (h : l₁ <:+ l₂) : l₁ <:+: l₂ := by
  obtain ⟨s, rfl⟩ := h
  exact ⟨s, [], by simp⟩

theorem infTrans {l₁ l₂ l₃ : List Char} (h1 : l₁ <:+: l₂) (h2 : l₂ <:+: l₃) :
    l₁ <:+: l₃ :=
  List.IsInfix.trans h1 h2

theorem infTail {l : List Char} {c : Char} (h : ¬ ticks <:+: c :: l) :
    ¬ ticks <:+: l :=
  fun hin => h (List.infix_cons_iff.mpr (Or.inr hin))

theorem hasTicks_eq_false {l : List Char} :
    hasTicks l = false ↔ ¬ ticks <:+: l := by
  induction l with
  | nil => simp [hasTicks, List.infix_nil, ticks]
  | cons c rest ih =>
    simp only [hasTicks, Bool.or_eq_false_iff]
    rw [List.infix_cons_iff]
    constructor
    · rintro ⟨h1, h2⟩ (h | h)
      · rw [← isPre_iff, h1] at h
        simp at h
      · exact (ih.mp h2) h
    · intro h
      refine ⟨?_, ih.mpr (fun hin => h (Or.inr hin))⟩
      cases hb : ticks.isPrefixOf (c :: rest)
      · rfl
      · exact absurd (Or.inl (isPre_iff.mp hb)) h

theorem tick1_nilrepl (l : List Char) :
    [bq] <+: pyReplace bq [bq, bq] [] l → [bq] <+: l := by
  cases l with
  | nil => rw [pyReplace_nil]; exact id
  | cons c rest =>
    rw [pyReplace_cons]
    by_cases hc : bq = c ∧ [bq, bq].isPrefixOf rest
    · rw [if_pos hc]
      intro _
      exact List.cons_prefix_cons.mpr ⟨hc.1, nilPre⟩
    · rw [if_neg hc]
      intro h
      exact List.cons_prefix_cons.mpr ⟨(List.cons_prefix_cons.mp h).1, nilPre⟩

theorem tick2_nilrepl (l : List Char) :
    [bq, bq] <+: pyReplace bq [bq, bq] [] l → [bq, bq] <+: l := by
  cases l with
  | nil => rw [pyReplace_nil]; exact id
  | cons c rest =>
    rw [pyReplace_cons]
    by_cases hc : bq = c ∧ [bq, bq].isPrefixOf rest
    · rw [if_pos hc]
      intro _
      have h2 : [bq] <+: rest :=
        List.IsPrefix.trans ⟨[bq], rfl⟩ (isPre_iff.mp hc.2)
      exact List.cons_prefix_cons.mpr ⟨hc.1, h2⟩
    · rw [if_neg hc]
      intro h
      have hm := List.cons_prefix_cons.mp h
      exact List.cons_prefix_cons.mpr ⟨hm.1, tick1_nilrepl rest hm.2⟩

theorem removeTicks_no_ticks : ∀ l, ¬ ticks <:+: pyReplace bq [bq, bq] [] l := by
  suffices h : ∀ n l, l.length ≤ n → ¬ ticks <:+: pyReplace bq [bq, bq] [] l by
    intro l
    exact h l.length l le_rfl
  intro n
  induction n with
  | zero =>
    intro l hl
    have : l = [] := List.length_eq_zero.mp (Nat.le_zero.mp hl)
    subst this
    rw [pyReplace_nil]
    simp [List.infix_nil, ticks]
  | succ n ih =>
    intro l hl
    cases l with
    | nil => rw [pyReplace_nil]; simp [List.infix_nil, ticks]
    | cons c rest =>
      rw [pyReplace_cons]
      by_cases hc : bq = c ∧ [bq, bq].isPrefixOf rest
      · rw [if_pos hc]
        have hb := ih (rest.drop ([bq, bq] : List Char).length)
          (by simp only [List.length_drop, List.length_cons] at hl ⊢; omega)
        simpa using hb
      · rw [if_neg hc]
        intro hin
        rcases List.infix_cons_iff.mp hin with hpre | htail
        · have hm := List.cons_prefix_cons.mp (by simpa [ticks] using hpre)
          have h2 := tick2_nilrepl rest hm.2
          exact hc ⟨hm.1, isPre_iff.mpr h2⟩
        · exact ih rest (by simp only [List.length_cons] at hl; omega) htail

theorem tick1_repl (pc : Char) (ps repl : List Char)
    (hnb : ∀ d ∈ repl, d ≠ bq) (hne : repl ≠ []) (l : List Char) :
    [bq] <+: pyReplace pc ps repl l → [bq] <+: l := by
  cases l with
  | nil => rw [pyReplace_nil]; exact id
  | cons c rest =>
    rw [pyReplace_cons]
    by_cases hc : pc = c ∧ ps.isPrefixOf rest
    · rw [if_pos hc]
      intro h
      cases hr : repl with
      | nil => exact absurd hr hne
      | cons e r' =>
        rw [hr, List.cons_append] at h
        have he := (List.cons_prefix_cons.mp h).1
        exact absurd he.symm (hnb e (by rw [hr]; exact List.mem_cons_self e r'))
    · rw [if_neg hc]
      intro h
      exact List.cons_prefix_cons.mpr ⟨(List.cons_prefix_cons.mp h).1, nilPre⟩

theorem tick2_repl (pc : Char) (ps repl : List Char)
    (hnb : ∀ d ∈ repl, d ≠ bq) (hne : repl ≠ []) (l : List Char) :
    [bq, bq] <+: pyReplace pc ps repl l → [bq, bq] <+: l := by
  cases l with
  | nil => rw [pyReplace_nil]; exact id
  | cons c rest =>
    rw [pyReplace_cons]
    by_cases hc : pc = c ∧ ps.isPrefixOf rest
    · rw [if_pos hc]
      intro h
      cases hr : repl with
      | nil => exact absurd hr hne
      | cons e r' =>
        rw [hr, List.cons_append] at h
        have he := (List.cons_prefix_cons.mp h).1
        exact absurd he.symm (hnb e (by rw [hr]; exact List.mem_cons_self e r'))
    · rw [if_neg hc]
      intro h
      have hm := List.cons_prefix_cons.mp h
      exact List.cons_prefix_cons.mpr ⟨hm.1, tick1_repl pc ps repl hnb hne rest hm.2⟩

theorem tickfree_append (u v : List Char) (hu : ∀ d ∈ u, d ≠ bq)
    (hv : ¬ ticks <:+: v) : ¬ ticks <:+: u ++ v := by
  induction u with
  | nil => simpa using hv
  | cons c u' ih =>
    rw [List.cons_append]
    intro hin
    rcases List.infix_cons_iff.mp hin with hpre | htail
    · have h1 := (List.cons_prefix_cons.mp (by simpa [ticks] using hpre)).1
      exact (hu c (List.mem_cons_self _ _)) h1.symm
    · exact ih (fun d hd => hu d (List.mem_cons_of_mem _ hd)) htail

theorem pyReplace_no_ticks (pc : Char) (ps repl : List Char)
    (hnb : ∀ d ∈ repl, d ≠ bq) (hne : repl ≠ []) :
    ∀ l, ¬ ticks <:+: l → ¬ ticks <:+: pyReplace pc ps repl l := by
  suffices h : ∀ n l, l.length ≤ n → ¬ ticks <:+: l →
      ¬ ticks <:+: pyReplace pc ps repl l by
    intro l
    exact h l.length l le_rfl
  intro n
  induction n with
  | zero =>
    intro l hl _
    have : l = [] := List.length_eq_zero.mp (Nat.le_zero.mp hl)
    subst this
    rw [pyReplace_nil]
    simp [List.infix_nil, ticks]
  | succ n ih =>
    intro l hl hno
    cases l with
    | nil => rw [pyReplace_nil]; simp [List.infix_nil, ticks]
    | cons c rest =>
      rw [pyReplace_cons]
      by_cases hc : pc = c ∧ ps.isPrefixOf rest
      · rw [if_pos hc]
        have hsub : ¬ ticks <:+: rest.drop ps.length := by
          intro hin
          exact hno (List.infix_cons_iff.mpr
            (Or.inr (infTrans hin (sufInf (List.drop_suffix _ _)))))
        exact tickfree_append repl _ hnb
          (ih _ (by simp only [List.length_drop, List.length_cons] at hl ⊢; omega) hsub)
      · rw [if_neg hc]
        intro hin
        rcases List.infix_cons_iff.mp hin with hpre | htail
        · have hm := List.cons_prefix_cons.mp (by simpa [ticks] using hpre)
          have h2 := tick2_repl pc ps repl hnb hne rest hm.2
          exact hno (List.infix_cons_iff.mpr
            (Or.inl (by simpa [ticks] using List.cons_prefix_cons.mpr ⟨hm.1, h2⟩)))
        · exact ih rest (by simp only [List.length_cons] at hl; omega)
            (infTail hno) htail

theorem pyRStrip_isPre (x : List Char) : pyRStrip x <+: x := by
  have h := List.dropWhile_suffix (l := x.reverse) isPySpace
  exact List.reverse_suffix.mp (by simpa [pyRStrip] using h)

theorem pyStrip_isInf (l : List Char) : pyStrip l <:+: l :=
  infTrans (preInf (pyRStrip_isPre (pyLStrip l)))
    (sufInf (List.dropWhile_suffix isPySpace))

theorem pyLines_spec : ∀ l : List Char,
    (∀ L ∈ pyLines l, L <:+: l) ∧ (∀ L ls, pyLines l = L :: ls → L <+: l) := by
  intro l
  induction l using pyLines.induct with
  | case1 =>
    constructor
    · intro L hL
      simp [pyLines] at hL
    · intro L ls h
      simp [pyLines] at h
  | case2 rest ih =>
    have he : pyLines ('\r' :: '\n' :: rest) = [] :: pyLines rest := rfl
    constructor
    · intro L hL
      rw [he] at hL
      rcases List.mem_cons.mp hL with rfl | h
      · exact preInf nilPre
      · exact infTrans (ih.1 L h) (sufInf ⟨['\r', '\n'], rfl⟩)
    · intro L ls h
      rw [he] at h
      rw [← ((List.cons.injEq _ _ _ _).mp h).1]
      exact nilPre
  | case3 c rest hno hLB ih =>
    have he : pyLines (c :: rest) = [] :: pyLines rest := by
      rw [pyLines.eq_3 c rest hno, if_pos hLB]
    constructor
    · intro L hL
      rw [he] at hL
      rcases List.mem_cons.mp hL with rfl | h
      · exact preInf nilPre
      · exact infTrans (ih.1 L h) (sufInf ⟨[c], rfl⟩)
    · intro L ls h
      rw [he] at h
      rw [← ((List.cons.injEq _ _ _ _).mp h).1]
      exact nilPre
  | case4 c rest hno hLB hrest ih =>
    have he : pyLines (c :: rest) = [[c]] := by
      rw [pyLines.eq_3 c rest hno, if_neg hLB, hrest]
    constructor
    · intro L hL
      rw [he] at hL
      rcases List.mem_cons.mp hL with rfl | h
      · exact preInf (List.cons_prefix_cons.mpr ⟨rfl, nilPre⟩)
      · simp at h
    · intro L ls h
      rw [he] at h
      rw [← ((List.cons.injEq _ _ _ _).mp h).1]
      exact List.cons_prefix_cons.mpr ⟨rfl, nilPre⟩
  | case5 c rest hno hLB L0 ls0 hrest ih =>
    have he : pyLines (c :: rest) = (c :: L0) :: ls0 := by
      rw [pyLines.eq_3 c rest hno, if_neg hLB, hrest]
    constructor
    · intro L hL
      rw [he] at hL
      rcases List.mem_cons.mp hL with rfl | h
      · exact preInf (List.cons_prefix_cons.mpr ⟨rfl, ih.2 L0 ls0 hrest⟩)
      · have hmem : L ∈ pyLines rest := by
          rw [hrest]
          exact List.mem_cons_of_mem _ h
        exact infTrans (ih.1 L hmem) (sufInf ⟨[c], rfl⟩)
    · intro L ls h
      rw [he] at h
      rw [← ((List.cons.injEq _ _ _ _).mp h).1]
      exact List.cons_prefix_cons.mpr ⟨rfl, ih.2 L0 ls0 hrest⟩

theorem noTicks_append_sep (u v : List Char) (hu : ¬ ticks <:+: u)
    (hv : ¬ ticks <:+: v) : ¬ ticks <:+: u ++ '\n' :: v := by
  induction u with
  | nil =>
    simp only [List.nil_append]
    intro hin
    rcases List.infix_cons_iff.mp hin with hpre | htail
    · have := (List.cons_prefix_cons.mp (by simpa [ticks] using hpre)).1
      exact absurd this (by decide)
    · exact hv htail
  | cons c u' ih =>
    rw [List.cons_append]
    intro hin
    rcases List.infix_cons_iff.mp hin with hpre | htail
    · have hm := List.cons_prefix_cons.mp (by simpa [ticks] using hpre)
      cases u' with
      | nil =>
        have := (List.cons_prefix_cons.mp (by simpa using hm.2)).1
        exact absurd this (by decide)
      | cons d u'' =>
        have hm2 := List.cons_prefix_cons.mp (by simpa using hm.2)
        cases u'' with
        | nil =>
          have hbn : bq = '\n' := by simpa using hm2.2
          exact absurd hbn (by decide)
        | cons e u''' =>
          have hm3 : bq = e := by simpa using hm2.2
          refine hu (List.infix_cons_iff.mpr (Or.inl ?_))
          show ticks <+: c :: d :: e :: u'''
          simp only [ticks]
          exact List.cons_prefix_cons.mpr ⟨hm.1, List.cons_prefix_cons.mpr
            ⟨hm2.1, List.cons_prefix_cons.mpr ⟨hm3, nilPre⟩⟩⟩
    · exact ih (infTail hu) htail

theorem joinNL_no_ticks :
    ∀ ls : List (List Char), (∀ L ∈ ls, ¬ ticks <:+: L) → ¬ ticks <:+: joinNL ls := by
  intro ls
  induction ls with
  | nil =>
    intro _
    simp [joinNL, List.infix_nil, ticks]
  | cons l ls ih =>
    intro h
    cases ls with
    | nil =>
      simpa [joinNL] using h l (List.mem_cons_self _ _)
    | cons l₂ ls' =>
      have he : joinNL (l :: l₂ :: ls') = l ++ '\n' :: joinNL (l₂ :: ls') := rfl
      rw [he]
      exact noTicks_append_sep _ _ (h l (List.mem_cons_self _ _))
        (ih (fun L hL => h L (List.mem_cons_of_mem _ hL)))

theorem replaceLit_ticks_eq (l : List Char) :
    replaceLit ticks [] l = pyReplace bq [bq, bq] [] l := rfl

theorem replaceLit_up_eq (l : List Char) :
    replaceLit upPat upNew l =
      pyReplace 'a' ("ctions/upload-artifact@v3".toList) upNew l := rfl

theorem replaceLit_down_eq (l : List Char) :
    replaceLit downPat downNew l =
      pyReplace 'a' ("ctions/download-artifact@v3".toList) downNew l := rfl

theorem replaceLit_gh_eq (l : List Char) :
    replaceLit ghPat ghNew l =
      pyReplace 'a' ("ctions-gh-pages/action".toList) ghNew l := rfl

theorem sanitize_no_ticks (raw : List Char) : ¬ ticks <:+: sanitize raw := by
  have h2 : ¬ ticks <:+: replaceLit ticks [] (subFence raw) := by
    rw [replaceLit_ticks_eq]
    exact removeTicks_no_ticks (subFence raw)
  have h3 : ¬ ticks <:+: pyStrip (replaceLit ticks [] (subFence raw)) :=
    fun hin => h2 (infTrans hin (pyStrip_isInf _))
  have h4 : ¬ ticks <:+:
      replaceLit upPat upNew (pyStrip (replaceLit ticks [] (subFence raw))) := by
    rw [replaceLit_up_eq]
    exact pyReplace_no_ticks _ _ _ (by decide) (by decide) _ h3
  have h5 : ¬ ticks <:+: replaceLit downPat downNew
      (replaceLit upPat upNew (pyStrip (replaceLit ticks [] (subFence raw)))) := by
    rw [replaceLit_down_eq]
    exact pyReplace_no_ticks _ _ _ (by decide) (by decide) _ h4
  have h6 : ¬ ticks <:+: replaceLit ghPat ghNew (replaceLit downPat downNew
      (replaceLit upPat upNew (pyStrip (replaceLit ticks [] (subFence raw))))) := by
    rw [replaceLit_gh_eq]
    exact pyReplace_no_ticks _ _ _ (by decide) (by decide) _ h5
  show ¬ ticks <:+: joinNL _
  apply joinNL_no_ticks
  intro L hL
  rcases List.mem_map.mp hL with ⟨L0, hL0, rfl⟩
  have hL0' : L0 ∈ pyLines (replaceLit ghPat ghNew (replaceLit downPat downNew
      (replaceLit upPat upNew (pyStrip (replaceLit ticks [] (subFence raw)))))) :=
    (List.mem_filter.mp hL0).1
  intro hin
  exact h6 (infTrans (infTrans hin (preInf (pyRStrip_isPre L0)))
    ((pyLines_spec _).1 L0 hL0'))

theorem dropWhile_append_all {p : Char → Bool} (u v : List Char)
    (hu : ∀ d ∈ u, p d = true) : (u ++ v).dropWhile p = v.dropWhile p := by
  induction u with
  | nil => simp
  | cons c u' ih =>
    rw [List.cons_append, List.dropWhile_cons, if_pos (hu c (List.mem_cons_self _ _))]
    exact ih (fun d hd => hu d (List.mem_cons_of_mem _ hd))

theorem dropWhile_head_false {p : Char → Bool} (c : Char) (v : List Char)
    (hc : p c = false) : (c :: v).dropWhile p = c :: v := by
  rw [List.dropWhile_cons, if_neg (by simp [hc])]

theorem subFence_id (l : List Char) (h : ∀ d ∈ l, d ≠ bq) : subFence l = l := by
  induction l with
  | nil => exact subFence_nil
  | cons c rest ih =>
    rw [subFence_cons, if_neg (fun hh => (h c (List.mem_cons_self _ _)) hh.1)]
    rw [ih (fun d hd => h d (List.mem_cons_of_mem _ hd))]

theorem pyReplace_id_of_head (pc : Char) (ps repl l : List Char)
    (h : ∀ d ∈ l, d ≠ pc) : pyReplace pc ps repl l = l := by
  induction l with
  | nil => exact pyReplace_nil _ _ _
  | cons c rest ih =>
    rw [pyReplace_cons,
      if_neg (fun hh => (h c (List.mem_cons_self _ _)) hh.1.symm)]
    rw [ih (fun d hd => h d (List.mem_cons_of_mem _ hd))]

theorem subFence_close (post : List Char) (hpost : ∀ d ∈ post, d ≠ bq)
    (hph : post.head?.all (fun ch => !isFenceAlpha ch) = true) :
    subFence (ticks ++ post) = post := by
  rw [show ticks ++ post = bq :: (bq :: bq :: post) from rfl]
  rw [subFence_cons, if_pos ⟨rfl, isPre_iff.mpr ⟨post, rfl⟩⟩]
  rw [show (bq :: bq :: post).drop 2 = post from rfl]
  cases post with
  | nil =>
    rw [List.dropWhile_nil]
    exact subFence_nil
  | cons p ps' =>
    rw [dropWhile_head_false p ps' (by simpa using hph)]
    exact subFence_id _ hpost

theorem subFence_body (body post : List Char)
    (hbody : ∀ d ∈ body, d ≠ bq) (hpost : ∀ d ∈ post, d ≠ bq)
    (hph : post.head?.all (fun ch => !isFenceAlpha ch) = true) :
    subFence (body ++ (ticks ++ post)) = body ++ post := by
  induction body with
  | nil =>
    simp only [List.nil_append]
    exact subFence_close post hpost hph
  | cons b body' ih =>
    rw [List.cons_append, subFence_cons,
      if_neg (fun hh => (hbody b (List.mem_cons_self _ _)) hh.1)]
    rw [ih (fun d hd => hbody d (List.mem_cons_of_mem _ hd))]
    rw [List.cons_append]

theorem subFence_fenced (pre lang body post : List Char)
    (hpre : ∀ d ∈ pre, d ≠ bq) (hlang : ∀ d ∈ lang, isFenceAlpha d = true)
    (hbody : ∀ d ∈ body, d ≠ bq) (hpost : ∀ d ∈ post, d ≠ bq)
    (hbh : body.head?.all (fun ch => !isFenceAlpha ch) = true)
    (hph : post.head?.all (fun ch => !isFenceAlpha ch) = true) :
    subFence (pre ++ (ticks ++ (lang ++ (body ++ (ticks ++ post))))) =
      pre ++ (body ++ post) := by
  induction pre with
  | nil =>
    simp only [List.nil_append]
    rw [show ticks ++ (lang ++ (body ++ (ticks ++ post))) =
      bq :: (bq :: bq :: (lang ++ (body ++ (ticks ++ post)))) from rfl]
    rw [subFence_cons, if_pos ⟨rfl, isPre_iff.mpr ⟨_, rfl⟩⟩]
    rw [show (bq :: bq :: (lang ++ (body ++ (ticks ++ post)))).drop 2 =
      lang ++ (body ++ (ticks ++ post)) from rfl]
    rw [dropWhile_append_all lang _ hlang]
    cases body with
    | nil =>
      simp only [List.nil_append]
      rw [show (ticks ++ post : List Char) = bq :: ([bq, bq] ++ post) from rfl]
      rw [dropWhile_head_false bq _ (by decide)]
      exact subFence_close post hpost hph
    | cons b body' =>
      rw [List.cons_append, dropWhile_head_false b _ (by simpa using hbh)]
      have := subFence_body (b :: body') post hbody hpost hph
      simpa using this
  | cons p pre' ih =>
    rw [List.cons_append, subFence_cons,
      if_neg (fun hh => (hpre p (List.mem_cons_self _ _)) hh.1)]
    rw [ih (fun d hd => hpre d (List.mem_cons_of_mem _ hd))]
    rw [List.cons_append]

/-- Claim C4, corrected statement — proved part.  For every input of the
shape `pre ++ "```" ++ lang ++ body ++ "```" ++ post` where the
surrounding and enclosed text contain no backquote, `lang` is a letter
tag, and neither the enclosed text nor the trailing text starts with a
letter (which the greedy `[a-zA-Z]*` of the fence regex would consume):
the Sanitizer's output contains no fence delimiter, and equals the
remaining pipeline stages — whitespace strip, the literal action-reference
replacements, the line filter with per-line trailing-whitespace removal —
applied to the concatenated surrounding and enclosed text.  The original
claim's "preserved verbatim modulo the line filter" fails because of the
strip and the replacements; see the counterexample theorem. -/
theorem claim_C4_fence_removal (pre lang body post : List Char)
    (hpre : ∀ d ∈ pre, d ≠ bq) (hlang : ∀ d ∈ lang, isFenceAlpha d = true)
    (hbody : ∀ d ∈ body, d ≠ bq) (hpost : ∀ d ∈ post, d ≠ bq)
    (hbh : body.head?.all (fun ch => !isFenceAlpha ch) = true)
    (hph : post.head?.all (fun ch => !isFenceAlpha ch) = true) :
    hasTicks (sanitize (pre ++ (ticks ++ (lang ++ (body ++ (ticks ++ post)))))) = false ∧
    sanitize (pre ++ (ticks ++ (lang ++ (body ++ (ticks ++ post))))) =
      postFencePipeline (pre ++ (body ++ post)) := by
  constructor
  · exact hasTicks_eq_false.mpr (sanitize_no_ticks _)
  · have hmem : ∀ d ∈ pre ++ (body ++ post), d ≠ bq := by
      intro d hd
      rcases List.mem_append.mp hd with h | h
      · exact hpre d h
      · rcases List.mem_append.mp h with h' | h'
        · exact hbody d h'
        · exact hpost d h'
    show postFencePipeline (replaceLit ticks [] (subFence _)) = _
    rw [subFence_fenced pre lang body post hpre hlang hbody hpost hbh hph]
    rw [replaceLit_ticks_eq]
    rw [pyReplace_id_of_head bq [bq, bq] [] _ hmem]

/-- Witness for the claim C4 theorem at a concrete fenced input. -/
theorem claim_C4_fence_removal_witness :
    hasTicks (sanitize ("Here:\n".toList ++ (ticks ++ ("yaml".toList ++
      ("\njobs: x\n".toList ++ (ticks ++ "\ndone".toList)))))) = false ∧
    sanitize ("Here:\n".toList ++ (ticks ++ ("yaml".toList ++
      ("\njobs: x\n".toList ++ (ticks ++ "\ndone".toList))))) =
      postFencePipeline ("Here:\n".toList ++ ("\njobs: x\n".toList ++ "\ndone".toList)) :=
  claim_C4_fence_removal ("Here:\n".toList) ("yaml".toList) ("\njobs: x\n".toList)
    ("\ndone".toList) (by decide) (by decide) (by decide) (by decide)
    (by decide) (by decide)

theorem yLookup_any {kvs : List (List Char × Yaml)} {k : List Char} {v : Yaml}
    (h : yLookup kvs k = some v) : kvs.any (fun kv => kv.1 == k) = true := by
  induction kvs with
  | nil => simp [yLookup] at h
  | cons kv rest ih =>
    obtain ⟨k', v'⟩ := kv
    rw [yLookup] at h
    by_cases hk : k' == k
    · simp [List.any_cons, hk]
    · rw [if_neg hk] at h
      simp only [List.any_cons]
      rw [ih h]
      simp

/-- Claim C2.  A sanitized candidate that parses to a mapping whose
`jobs` entry is itself a mapping containing a `deploy` key is written
unchanged: the validation accepts it and no fallback substitution happens. -/
theorem claim_C2_valid_candidate_passes (c : List Char)
    (kvs kvs2 : List (List Char × Yaml))
    (hparse : yamlParse c = .ok (.map kvs))
    (hjobs : yLookup kvs jobsKey = some (.map kvs2))
    (hdeploy : (yLookup kvs2 deployKey).isSome = true) :
    validateStep c = .ok c := by
  have hne : kvs ≠ [] := by
    intro h
    rw [h] at hjobs
    simp [yLookup] at hjobs
  have htr : pyTruthy (.map kvs) = true := by
    match kvs, hne with
    | kv :: rest, _ => rfl
  have hc1 : pyContains (.map kvs) jobsKey = .ok true := by
    simp only [pyContains]
    rw [yLookup_any hjobs]
  have hget : pyGetItem (.map kvs) jobsKey = .ok (.map kvs2) := by
    simp only [pyGetItem]
    rw [hjobs]
  have hc2 : pyContains (.map kvs2) deployKey = .ok true := by
    obtain ⟨v, hv⟩ := Option.isSome_iff_exists.mp hdeploy
    simp only [pyContains]
    rw [yLookup_any hv]
  have hinv : pyCheckInvalid (.map kvs) = .ok false := by
    unfold pyCheckInvalid
    simp [htr, hc1, hget, hc2]
  unfold validateStep
  simp [hparse, hinv]

/-- Witness for the claim C2 theorem at a concrete candidate. -/
theorem claim_C2_valid_candidate_passes_witness :
    validateStep ("jobs:\n  deploy: go".toList) = .ok ("jobs:\n  deploy: go".toList) :=
  claim_C2_valid_candidate_passes ("jobs:\n  deploy: go".toList)
    [(jobsKey, .map [(deployKey, .str ("go".toList))])]
    [(deployKey, .str ("go".toList))] rfl rfl rfl

/-- Claim C3.  The literal fallback document parses under the modelled
`yaml.safe_load` to `fallbackParsed`, which has a top-level `jobs` mapping
containing `deploy`; the validity check accepts it, so the
validate-or-substitute step maps the fallback to itself (fixed point). -/
theorem claim_C3_fallback_fixed_point :
    yamlParse FALLBACK_WORKFLOW = .ok fallbackParsed ∧
    specHasJobsDeploy fallbackParsed = true ∧
    pyCheckInvalid fallbackParsed = .ok false ∧
    validateStep FALLBACK_WORKFLOW = .ok FALLBACK_WORKFLOW :=
  ⟨rfl, rfl, rfl, rfl⟩

/-- Claim C1, corrected statement — proved part.  When the parse of the
sanitized candidate raises, or it succeeds and the code's membership-based
validity test evaluates (without a Python `TypeError`) to `invalid`, the
final document is the fallback verbatim and no error escapes.  The original
claim's hypothesis "the result lacks a top-level `jobs` mapping containing
a `deploy` key" is strictly weaker than the code's test (see the
counterexample theorem): Python's `in` does substring matching on strings,
so some structurally invalid documents are accepted, and on others the
check raises an uncaught `TypeError`. -/
theorem claim_C1_fallback_on_failure (raw : List Char)
    (h : (∃ e, yamlParse (sanitize raw) = .error e) ∨
      (∃ v, yamlParse (sanitize raw) = .ok v ∧ pyCheckInvalid v = .ok true)) :
    finalWorkflowText raw = .ok FALLBACK_WORKFLOW := by
  unfold finalWorkflowText validateStep
  rcases h with ⟨e, he⟩ | ⟨v, hv, hinv⟩
  · rw [he]
  · simp [hv, hinv]

/-- Witness for the claim C1 theorem: free-form prose sanitizes to the
empty document, which parses to `None` and is falsy, so the fallback is
written. -/
theorem claim_C1_fallback_on_failure_witness :
    finalWorkflowText ("hello agent".toList) = .ok FALLBACK_WORKFLOW :=
  claim_C1_fallback_on_failure ("hello agent".toList) (Or.inr ⟨Yaml.null, rfl, rfl⟩)

/-- Counterexample to claim C1 as stated: for the raw agent text
`"jobs: deployment"` the parse succeeds with a mapping whose `jobs` value
is the string `"deployment"` — so the result lacks a top-level `jobs`
mapping containing a `deploy` key — yet the flow accepts the candidate
(Python's `"deploy" not in "deployment"` is `False` by substring matching)
and the final document is not the Fallback Document. -/
theorem claim_C1_counterexample :
    sanitize ("jobs: deployment".toList) = "jobs: deployment".toList ∧
    yamlParse ("jobs: deployment".toList) =
      .ok (.map [(jobsKey, .str ("deployment".toList))]) ∧
    specHasJobsDeploy (.map [(jobsKey, .str ("deployment".toList))]) = false ∧
    finalWorkflowText ("jobs: deployment".toList) = .ok ("jobs: deployment".toList) ∧
    "jobs: deployment".toList ≠ FALLBACK_WORKFLOW := by
  refine ⟨rfl, rfl, rfl, rfl, ?_⟩
  decide

/-- Claim C5, corrected statement — proved part.  When every line of the
input is blank after stripping, or its stripped form matches
`^(\w+):` or `^- `, or the raw line begins with a SPACE character, the
line filter keeps every line.  The original claim said "begins with
leading whitespace"; the code tests `line.startswith(" ")`, so a
tab-indented line is dropped (see the counterexample theorem). -/
theorem claim_C5_filter_identity (t : List Char)
    (h : ∀ L ∈ pyLines t, pyStrip L = [] ∨ reKeyMatch (pyStrip L) = true ∨
      reDashMatch (pyStrip L) = true ∨ startsWithSpace L = true) :
    (pyLines t).filter keepLine = pyLines t := by
  rw [List.filter_eq_self]
  intro L hL
  rcases h L hL with h1 | h1 | h1 | h1 <;> simp [keepLine, h1]

/-- Witness for the claim C5 theorem on a concrete input whose lines are
key-shaped, dash-shaped, space-indented and blank. -/
theorem claim_C5_filter_identity_witness :
    (pyLines ("key: 1\n- item\n  nested\n\nend:".toList)).filter keepLine =
      pyLines ("key: 1\n- item\n  nested\n\nend:".toList) :=
  claim_C5_filter_identity ("key: 1\n- item\n  nested\n\nend:".toList) (by decide)

/-- Counterexample to claim C5 as stated: the line `"\tnote"` begins with
leading whitespace (tab is whitespace), yet the filter drops it because
the code checks for a literal space — the filter is not the identity on
this input. -/
theorem claim_C5_counterexample :
    isPySpace '\t' = true ∧
    pyLines ("\tnote".toList) = ["\tnote".toList] ∧
    keepLine ("\tnote".toList) = false ∧
    (pyLines ("\tnote".toList)).filter keepLine = [] ∧
    ([] : List (List Char)) ≠ pyLines ("\tnote".toList) := by
  refine ⟨rfl, rfl, rfl, rfl, ?_⟩
  decide

/-- Counterexample to claim C6 as stated: on
`"actions-gh-pages/actions/upload-artifact@v3"`, whose gh-pages
occurrence overlaps the upload-artifact occurrence, the implemented order
(upload, download, gh-pages) and the reverse order give different
results, so the three replacements are not order-independent. -/
theorem claim_C6_counterexample :
    replaceLit ghPat ghNew (replaceLit downPat downNew (replaceLit upPat upNew
      ("actions-gh-pages/actions/upload-artifact@v3".toList))) =
      "peaceiris/actions-gh-pagess/upload-artifact@v4".toList ∧
    replaceLit upPat upNew (replaceLit downPat downNew (replaceLit ghPat ghNew
      ("actions-gh-pages/actions/upload-artifact@v3".toList))) =
      "peaceiris/actions-gh-pagess/upload-artifact@v3".toList ∧
    "peaceiris/actions-gh-pagess/upload-artifact@v4".toList ≠
      "peaceiris/actions-gh-pagess/upload-artifact@v3".toList := by
  refine ⟨rfl, rfl, ?_⟩
  decide

/-- Counterexample to claim C4 as stated: for the fenced input
`"```\n  uses: actions/upload-artifact@v3\n```"` the enclosed text is not
preserved verbatim modulo the line filter: the outer `.strip()` removes
the indentation and the literal replacement rewrites `@v3` to `@v4`. -/
theorem claim_C4_counterexample :
    hasTicks ("```\n  uses: actions/upload-artifact@v3\n```".toList) = true ∧
    sanitize ("```\n  uses: actions/upload-artifact@v3\n```".toList) =
      "uses: actions/upload-artifact@v4".toList ∧
    lineFilterOnly ("\n  uses: actions/upload-artifact@v3\n".toList) =
      "\n  uses: actions/upload-artifact@v3".toList ∧
    sanitize ("```\n  uses: actions/upload-artifact@v3\n```".toList) ≠
      lineFilterOnly ("\n  uses: actions/upload-artifact@v3\n".toList) := by
  refine ⟨rfl, rfl, rfl, ?_⟩
  decide

/-- Claim C7.  On the spec's end-to-end scenario the flow accepts the
sanitized candidate; the written file parses to the expected mapping and
contains no fence marker. -/
theorem claim_C7_end_to_end :
    finalWorkflowText ("```yaml\non: push\njobs:\n  deploy:\n    steps: []\n```".toList) =
      .ok ("on: push\njobs:\n  deploy:\n    steps: []".toList) ∧
    yamlParse ("on: push\njobs:\n  deploy:\n    steps: []".toList) =
      .ok (.map [("on".toList, .str ("push".toList)),
        (jobsKey, .map [(deployKey, .map [("steps".toList, .list [])])])]) ∧
    hasTicks ("on: push\njobs:\n  deploy:\n    steps: []".toList) = false :=
  ⟨rfl, rfl, rfl⟩

/-- Claim C8.  With the credential absent the module top level raises
`ValueError` before any side effect: the startup step returns an error and
(so) the whole script aborts with no effect list produced — in particular
no placeholder write, no repository initialisation, and no agent call. -/
theorem claim_C8_missing_credential_aborts :
    ∀ (st : SysState) (agentText : List Char),
      scriptStartup none st = .error () ∧
      runScript none st agentText = .error .valueError := by
  intro st t
  exact ⟨rfl, rfl⟩

/-- Claim C9.  When the repository reports no uncommitted changes, the
commit decision stages nothing, commits nothing, creates no remote and
pushes nothing: the repository state is returned unchanged with an empty
effect list, and whenever the flow completes it does so with only the
agent call and the file write as effects. -/
theorem claim_C9_clean_tree_no_push (st : SysState) (hclean : st.dirty = false) :
    commitStep st = (st, []) ∧
    (∀ t doc fx, mainFlow t st = .ok (doc, fx) →
      fx = [.agentRun, .writeWorkflowFile]) := by
  have hc : commitStep st = (st, []) := by
    unfold commitStep
    rw [hclean]
    simp
  refine ⟨hc, ?_⟩
  intro t doc fx h
  unfold mainFlow at h
  cases hv : validateStep (sanitize t) with
  | error e =>
    rw [hv] at h
    simp at h
  | ok d =>
    rw [hv, hc] at h
    simp at h
    exact h.2.symm

/-- Witness for the claim C9 theorem at a concrete clean state. -/
theorem claim_C9_clean_tree_no_push_witness :
    commitStep ⟨true, true, false, mainBranch, true, false, [originName]⟩ =
      (⟨true, true, false, mainBranch, true, false, [originName]⟩, []) :=
  (claim_C9_clean_tree_no_push ⟨true, true, false, mainBranch, true, false, [originName]⟩ rfl).1

/-- Claim C10.  The sanitize-then-validate pipeline is deterministic and
independent of the environment: the document component of the flow's
result is the same for any two system states, and equals the pure function
`finalWorkflowText` of the agent text alone (two runs on the same text
therefore produce the same final document and the same
accept-or-fallback choice). -/
theorem claim_C10_pipeline_deterministic :
    ∀ (t : List Char) (s1 s2 : SysState),
      (mainFlow t s1).map Prod.fst = (mainFlow t s2).map Prod.fst ∧
      (mainFlow t s1).map Prod.fst = finalWorkflowText t := by
  intro t s1 s2
  have h : ∀ s : SysState, (mainFlow t s).map Prod.fst = finalWorkflowText t := by
    intro s
    unfold mainFlow finalWorkflowText
    cases hv : validateStep (sanitize t) <;> simp [Except.map]
  exact ⟨(h s1).trans (h s2).symm, h s1⟩
